import Mathlib

/-!
Verification of the concept-disambiguation engine of the hybrid knowledge-graph
pipeline.  The definitions below are a shallow embedding of the Python sources:

* `src/infrastructure/neo4j_client.py` — the in-memory fallback graph gateway
  (`SkosGraphGateway._shortest_path_fallback`, `_search_candidates_fallback`,
  and the `shortest_path` dispatcher in fallback mode);
* `src/application/services.py` — `KnowledgeGraphService` (`_compute_paths`,
  `_paths_to_text`, `_summarize_paths`, `_decide_candidates`, `_parse_decision`,
  `_extract_mentions`, `_select_candidates`, `_extract_context`, `analyze`);
* `src/domain/models.py` — the frozen dataclasses.

Python is dynamically typed; JSON payloads that flow through the pipeline are
modelled by the inductive `JVal`, with the Python value `None` and the JSON
value `null` both represented by `JVal.jnull` (exactly as `json.loads` maps
JSON `null` to Python `None`).  Fallible Python code (statements that can raise)
is modelled in the `Except String` monad; the error strings name the Python
exception or message raised.  The external LLM collaborator is modelled by the
outcome of `json.loads` on its response text (`LlmResponse`), and the response
functions of a deterministic stub collaborator (`LlmStub`).
-/

namespace KG

/-- JSON-like values, the payloads travelling through the pipeline.  `jnull`
also stands for the Python value `None` (the image of JSON `null` under
`json.loads`, and the result of `dict.get` on a missing key). -/
inductive JVal where
  | jnull : JVal
  | jbool (b : Bool) : JVal
  | jnum (q : ℚ) : JVal
  | jstr (s : String) : JVal
  | jarr (xs : List JVal) : JVal
  | jobj (fields : List (String × JVal)) : JVal

/-- Python truthiness of a JSON value (`None`, `False`, `0`, `""`, `[]`, and
an empty dict are falsy). -/
def JVal.falsy : JVal → Bool
  | .jnull => true
  | .jbool b => !b
  | .jnum q => q = 0
  | .jstr s => s = ""
  | .jarr xs => xs.isEmpty
  | .jobj fields => fields.isEmpty

/-- One edge of structural evidence (dataclass `PathStep` of
`src/domain/models.py`). -/
structure PathStep where
  subject_iri : String
  subject_label : Option String
  predicate : String
  object_iri : String
  object_label : Option String
deriving DecidableEq, Repr

/-- A retrieved taxonomy candidate (dataclass `Candidate`): the fallback search
produces a string IRI and label; `score` is carried as a JSON value
(`1.0` for fallback matches). -/
structure Candidate where
  iri : String
  label : String
  score : JVal

/-- Pairing of a mention surface with its ordered candidate list (dataclass
`MentionCandidates`). -/
structure MentionCandidates where
  surface : String
  candidates : List Candidate

/-! ## The in-memory fallback graph gateway (`neo4j_client.py`) -/

/-- One stored relation tuple `(predicate, target iri, target label)`. -/
abbrev Rel := String × String × String

/-- The in-memory fallback graph: Python `dict[str, list[tuple[str, str, str]]]`
represented as an association list with the dict's (unique-key) insertion
order. -/
abbrev Graph := List (String × List Rel)

/-- Python `self.fallback_graph.get(current, [])`. -/
def graphAdj (g : Graph) (iri : String) : List Rel :=
  (g.lookup iri).getD []

/-- Python `iri in self.fallback_graph` (dict key membership). -/
def graphHasKey (g : Graph) (iri : String) : Bool :=
  (g.lookup iri).isSome

/-- Total number of stored relation tuples; used as the (provably sufficient)
iteration bound for the breadth-first loop. -/
def totalEdges (g : Graph) : Nat :=
  (g.map (fun e => e.2.length)).sum

/-- The `PathStep` built inside `_shortest_path_fallback` for the edge of `r`
leaving `current`. -/
def mkStep (current : String) (r : Rel) : PathStep :=
  { subject_iri := current
    subject_label := none
    predicate := r.1
    object_iri := r.2.1
    object_label := some r.2.2 }

/-- The `while queue:` loop of `SkosGraphGateway._shortest_path_fallback`.
`fuel` bounds the number of iterations; `shortestPathFallback` supplies a fuel
for which the `0` branch is unreachable (each iteration strictly decreases
`bfsMeasure` below). -/
def bfsLoop (g : Graph) (target : String) (maxHops : Nat) :
    Nat → List String → List (String × List PathStep) → Option (List PathStep)
  | 0, _, _ => none
  | _ + 1, _, [] => none
  | fuel + 1, visited, (current, path) :: queue =>
    if maxHops < path.length then
      bfsLoop g target maxHops fuel visited queue
    else if current = target then
      some path
    else if current ∈ visited then
      bfsLoop g target maxHops fuel visited queue
    else
      bfsLoop g target maxHops fuel (current :: visited)
        (queue ++ (graphAdj g current).map (fun r => (r.2.1, path ++ [mkStep current r])))

/-- `SkosGraphGateway._shortest_path_fallback`: guard on dict membership of both
endpoints, then breadth-first search from the source. -/
def shortestPathFallback (g : Graph) (source target : String) (maxHops : Nat) :
    Option (List PathStep) :=
  if graphHasKey g source && graphHasKey g target then
    bfsLoop g target maxHops (totalEdges g + 1) [] [(source, [])]
  else
    none

/-- `SkosGraphGateway.shortest_path` in fallback mode (no Neo4j driver
configured): dispatches to `_shortest_path_fallback`, dropping
`hub_threshold`; with neither driver nor fallback graph it returns `None`. -/
def gatewayShortestPath (fallbackGraph : Option Graph) (source target : String)
    (maxHops : Nat) (hubThreshold : Option Nat) : Option (List PathStep) :=
  match fallbackGraph with
  | some g => shortestPathFallback g source target maxHops
  | none => none

/-- `SkosGraphGateway._search_candidates_fallback`: case-insensitive substring
match of the surface against every stored target label, in graph iteration
order, truncated to `limit`. -/
def searchCandidatesFallback (g : Graph) (surface : String) (limit : Nat) :
    List Candidate :=
  ((g.flatMap (fun e => e.2)).filter
      (fun r => decide ((surface.toList.map Char.toLower) <:+:
        (r.2.2.toList.map Char.toLower)))).map
    (fun r => { iri := r.2.1, label := r.2.2, score := JVal.jnum 1 })
  |>.take limit

/-- `IsPathFrom g u v p`: `p` is a chain of `PathStep`s following stored
relations of `g` from `u` to `v` (the connecting paths the fallback search
ranges over). -/
inductive IsPathFrom (g : Graph) : String → String → List PathStep → Prop
  | nil (v : String) : IsPathFrom g v v []
  | cons (u v : String) (r : Rel) (p : List PathStep) (hr : r ∈ graphAdj g u)
      (hp : IsPathFrom g r.2.1 v p) : IsPathFrom g u v (mkStep u r :: p)

/-- Number of relation tuples stored at keys not yet visited. -/
def unvisitedEdges (g : Graph) (visited : List String) : Nat :=
  match g with
  | [] => 0
  | e :: rest => (if e.1 ∈ visited then 0 else e.2.length) + unvisitedEdges rest visited

/-- Strictly decreasing measure of one `while queue:` iteration. -/
def bfsMeasure (g : Graph) (visited : List String)
    (queue : List (String × List PathStep)) : Nat :=
  queue.length + unvisitedEdges g visited

/-- Invariant of the breadth-first loop.  `f` is a ghost assignment recording,
for each visited node, the length of the path it was expanded with. -/
structure BfsInv (g : Graph) (s t : String) (maxHops : Nat) (f : String → Nat)
    (visited : List String) (queue : List (String × List PathStep)) : Prop where
  sound : ∀ e ∈ queue, IsPathFrom g s e.1 e.2
  mono : queue.Pairwise (fun a b => a.2.length ≤ b.2.length ∧ b.2.length ≤ a.2.length + 1)
  visLe : ∀ v ∈ visited, ∀ e ∈ queue, f v ≤ e.2.length
  visHops : ∀ v ∈ visited, f v ≤ maxHops
  targetNotVis : t ∉ visited
  closure : ∀ v ∈ visited, ∀ r ∈ graphAdj g v,
    maxHops < f v + 1 ∨ (r.2.1 ∈ visited ∧ f r.2.1 ≤ f v + 1) ∨
      ∃ e ∈ queue, e.1 = r.2.1 ∧ e.2.length ≤ f v + 1
  reach : ∀ q, IsPathFrom g s t q → q.length ≤ maxHops →
    ∃ m k q2, k + q2.length ≤ q.length ∧ IsPathFrom g m t q2 ∧
      ((m ∈ visited ∧ f m ≤ k) ∨ ∃ e ∈ queue, e.1 = m ∧ e.2.length ≤ k)

/-! ## Path evidence collection (`KnowledgeGraphService._compute_paths`) -/

/-- Inner loop `for other_idx, other in enumerate(candidate_selections)` with
`continue` at the candidate's own mention index (`oidx` is the running
enumeration counter): the cross-mention query pairs issued for one candidate,
in order. -/
def crossQueriesAux (c : Candidate) (idx : Nat) :
    Nat → List MentionCandidates → List (String × String)
  | _, [] => []
  | oidx, other :: rest =>
    (if idx = oidx then [] else other.candidates.map (fun oc => (c.iri, oc.iri)))
      ++ crossQueriesAux c idx (oidx + 1) rest

/-- Intra-mention loop of `_compute_paths`: ordered pairs within the same
selection, skipping candidates whose IRI equals the candidate's own IRI. -/
def intraQueries (c : Candidate) (sel : MentionCandidates) : List (String × String) :=
  sel.candidates.flatMap (fun oc => if oc.iri = c.iri then [] else [(c.iri, oc.iri)])

/-- Outer loops of `_compute_paths` (`for idx, selection in enumerate(...)`,
then `for candidate in selection.candidates`): the ordered list of
`(source, target)` pairs passed to `shortest_path`, one per issued query. -/
def computePathsQueriesAux (sels : List MentionCandidates) :
    Nat → List MentionCandidates → List (String × String)
  | _, [] => []
  | idx, sel :: rest =>
    sel.candidates.flatMap (fun c => crossQueriesAux c idx 0 sels ++ intraQueries c sel)
      ++ computePathsQueriesAux sels (idx + 1) rest

/-- All shortest-path queries issued by one `_compute_paths` call, in issue
order. -/
def computePathsQueries (sels : List MentionCandidates) : List (String × String) :=
  computePathsQueriesAux sels 0 sels

/-- Python `if path:` — a query result is kept only when it is a non-empty
list (`None` and `[]` are both falsy). -/
def collectPath (sp : String → String → Option (List PathStep))
    (q : String × String) : Option (List PathStep) :=
  match sp q.1 q.2 with
  | none => none
  | some p => if p.isEmpty then none else some p

/-- `_compute_paths` with shortest-path oracle `sp`: the collected evidence
list in collection order (each issued query's truthy result is appended as it
is obtained, so the evidence order follows the query order). -/
def computePaths (sp : String → String → Option (List PathStep))
    (sels : List MentionCandidates) : List (List PathStep) :=
  (computePathsQueries sels).filterMap (collectPath sp)

/-- Spec-side description: the cross-mention query pairs of candidate `c` of
the mention at position `i`, one per candidate of every other mention, other
mentions in input order, their candidates in order. -/
def specCross (sels : List MentionCandidates) (i : Nat) (c : Candidate) :
    List (String × String) :=
  (sels.enum.filter (fun p => p.1 ≠ i)).flatMap
    (fun p => p.2.candidates.map (fun oc => (c.iri, oc.iri)))

/-- Spec-side description: the intra-mention query pairs of candidate `c`,
one per same-mention candidate with a different IRI, in order. -/
def specIntra (sel : MentionCandidates) (c : Candidate) : List (String × String) :=
  (sel.candidates.filter (fun oc => oc.iri ≠ c.iri)).map (fun oc => (c.iri, oc.iri))

/-- The evidence order asserted by the specification sentence: all
cross-mention pairs first (mentions in input order, candidates in order), and
only then all intra-mention pairs. -/
def claimedGlobalEvidence (sp : String → String → Option (List PathStep))
    (sels : List MentionCandidates) : List (List PathStep) :=
  ((sels.enum.flatMap (fun p => p.2.candidates.flatMap (fun c => specCross sels p.1 c)))
      ++ (sels.enum.flatMap (fun p => p.2.candidates.flatMap (fun c => specIntra p.2 c))))
    |>.filterMap (collectPath sp)

/-- The per-candidate evidence order: for each mention in input order and each
of its candidates in order, first that candidate's cross-mention pairs, then
its intra-mention pairs. -/
def perCandidateEvidence (sp : String → String → Option (List PathStep))
    (sels : List MentionCandidates) : List (List PathStep) :=
  sels.enum.flatMap (fun p => p.2.candidates.flatMap
    (fun c => (specCross sels p.1 c ++ specIntra p.2 c).filterMap (collectPath sp)))

/-! ## LLM collaborator model and response parsing (`services.py`) -/

/-- Outcome of `json.loads` applied to a generation response text: the
response was absent or empty (Python-falsy), was not valid JSON, or parsed to
a JSON value.  Every response string falls in exactly one class. -/
inductive LlmResponse where
  | absent : LlmResponse
  | invalidJson : LlmResponse
  | parsed (v : JVal) : LlmResponse

/-- The data the candidate-decision prompt is built from for one mention:
surface, context window, global summary, and the serialized candidate list. -/
structure DecisionQuery where
  surface : String
  context : String
  summary : String
  candidates : List Candidate

/-- A deterministic stubbed text-generation collaborator: one response per
pipeline stage, a pure function of the stage's prompt inputs. -/
structure LlmStub where
  ner : LlmResponse
  pathToText : List (List PathStep) → LlmResponse
  summarize : List JVal → Option String
  decision : DecisionQuery → LlmResponse

/-- Dataclass `Mention`: the fields hold whatever JSON values the NER response
carried (`jnull` for Python `None`); `stop` stands for the Python field
`end`, a reserved word here. -/
structure Mention where
  surface : JVal
  label : JVal
  start : JVal
  stop : JVal
  confidence : JVal

/-- A candidate as constructed by `_parse_decision` (the Python `Candidate`
dataclass with dynamically-typed contents; `jnull` stands for `None`). -/
structure PyCandidate where
  iri : JVal
  label : JVal
  score : JVal

/-- A retrieved candidate seen as a decision result. -/
def Candidate.toPy (c : Candidate) : PyCandidate :=
  { iri := JVal.jstr c.iri, label := JVal.jstr c.label, score := c.score }

/-- Dataclass `PathEvidence`: the whole-request path list plus the optional
summary. -/
structure PathEvidence where
  paths : List (List PathStep)
  summary : Option String

/-- Dataclass `DisambiguatedMention`. -/
structure DisambiguatedMention where
  surface : JVal
  label : JVal
  start : JVal
  stop : JVal
  confidence : JVal
  chosen : Option PyCandidate
  evidence : PathEvidence

/-- One item of `data.get("mentions", [])` turned into a `Mention`
(`item.get(key, default)` falls to the default only when the key is absent);
a non-dict item raises at `item.get`. -/
def parseMentionItem (item : JVal) : Except String Mention :=
  match item with
  | .jobj f =>
    .ok { surface := (f.lookup "surface").getD (JVal.jstr "")
          label := (f.lookup "label").getD JVal.jnull
          start := (f.lookup "start").getD JVal.jnull
          stop := (f.lookup "end").getD JVal.jnull
          confidence := (f.lookup "confidence").getD JVal.jnull }
  | _ => .error "AttributeError"

/-- Iterating the value at key `"mentions"`: a JSON list iterates its items; a
string iterates its characters and a dict its keys (raising at `item.get`
unless empty); other values are not iterable. -/
def parseMentionList : JVal → Except String (List Mention)
  | .jarr items => items.mapM parseMentionItem
  | .jstr s => if s.isEmpty then .ok [] else .error "AttributeError"
  | .jobj f => if f.isEmpty then .ok [] else .error "AttributeError"
  | _ => .error "TypeError"

/-- `_extract_mentions`: an absent response defaults to the empty JSON object,
invalid JSON raises `ValueError`, and the mention list is read from
`data.get("mentions", [])` (raising at `data.get` if the payload is not an
object). -/
def extractMentions (resp : LlmResponse) : Except String (List Mention) :=
  match resp with
  | .absent => .ok []
  | .invalidJson => .error "NER stage returned invalid JSON."
  | .parsed (.jobj fields) =>
    match fields.lookup "mentions" with
    | none => .ok []
    | some v => parseMentionList v
  | .parsed _ => .error "AttributeError"

/-- `_select_candidates` in fallback mode: one full-text search per mention,
in order; a non-string surface raises at `surface.lower()` inside the
fallback search. -/
def selectCandidates (g : Graph) (topK : Nat) :
    List Mention → Except String (List MentionCandidates)
  | [] => .ok []
  | m :: rest =>
    match m.surface with
    | .jstr s =>
      match selectCandidates g topK rest with
      | .ok tail =>
        .ok ({ surface := s, candidates := searchCandidatesFallback g s topK } :: tail)
      | .error e => .error e
    | _ => .error "AttributeError"

/-- `_paths_to_text`: skipped entirely on empty evidence; otherwise one
generation call whose response (defaulted to `"[]"` when absent) must parse
as a JSON list.  The `Bool` records whether a generation call was made
(Python returns the generation payload there, and `None` when skipped). -/
def pathsToText (gen : List (List PathStep) → LlmResponse)
    (paths : List (List PathStep)) : Except String (List JVal × Bool) :=
  if paths.isEmpty then .ok ([], false)
  else
    match gen paths with
    | .absent => .ok ([], true)
    | .invalidJson => .error "Path translation stage returned invalid JSON."
    | .parsed (.jarr xs) => .ok (xs, true)
    | .parsed _ => .error "Path translation stage returned invalid JSON."

/-- `_summarize_paths`: skipped on an empty sentence list; otherwise one
generation call whose raw response text (defaulted to the empty string) is
stripped of surrounding whitespace.  The `Bool` records whether a generation
call was made. -/
def summarizePaths (gen : List JVal → Option String) (sentences : List JVal) :
    String × Bool :=
  if sentences.isEmpty then ("", false)
  else (((gen sentences).getD "").trim, true)

/-- `_parse_decision`: an absent/empty or invalid-JSON response falls back to
the first retrieved candidate (or no choice when there is none); a JSON
object with a falsy `iri` falls back likewise when candidates exist, and
otherwise a `Candidate` is constructed from the object's fields; a valid-JSON
non-object response raises at `data.get`. -/
def parseDecision (resp : LlmResponse) (cands : List Candidate) :
    Except String (Option PyCandidate) :=
  match resp with
  | .absent => .ok (cands.head?.map Candidate.toPy)
  | .invalidJson => .ok (cands.head?.map Candidate.toPy)
  | .parsed (.jobj fields) =>
    let iri := (fields.lookup "iri").getD JVal.jnull
    let lbl := (fields.lookup "label").getD JVal.jnull
    if iri.falsy && !cands.isEmpty then
      .ok (cands.head?.map Candidate.toPy)
    else
      .ok (some { iri := iri
                  label := if lbl.falsy then JVal.jstr "" else lbl
                  score := (fields.lookup "score").getD JVal.jnull })
  | .parsed _ => .error "AttributeError"

/-- The Python integer a JSON value denotes in slice arithmetic (booleans are
integers in Python); `none` when slicing with the value would raise
`TypeError` (non-numbers and non-integral floats). -/
def JVal.asSliceInt : JVal → Option Int
  | .jnum q => if q.den = 1 then some q.num else none
  | .jbool b => some (if b then 1 else 0)
  | _ => none

/-- Python string slice `text[left:right]` for `0 ≤ left` (a negative `right`
counts from the end of the string). -/
def pySlice (text : String) (left right : Int) : String :=
  let r : Int := if right < 0 then (text.length : Int) + right else right
  String.mk ((text.toList.take r.toNat).drop left.toNat)

/-- `_extract_context` (window 80): the first 160 characters when either
offset is `None`, otherwise the slice `[max(0, start-80), min(len, end+80))`. -/
def extractContext (text : String) (start stop : JVal) : Except String String :=
  match start, stop with
  | .jnull, _ => .ok (String.mk (text.toList.take 160))
  | _, .jnull => .ok (String.mk (text.toList.take 160))
  | a, b =>
    match a.asSliceInt, b.asSliceInt with
    | some av, some bv =>
      .ok (pySlice text (max 0 (av - 80)) (min (text.length : Int) (bv + 80)))
    | _, _ => .error "TypeError"

/-- `_decide_candidates`: zip of mentions with their selections; each pair
gets a context window, one generation call, and a parsed decision, and emits
a `DisambiguatedMention` copying the mention's fields and attaching the
whole-request evidence with `summary_text or None`. -/
def decideCandidates (decisionFn : DecisionQuery → LlmResponse) (text : String)
    (summary : String) (paths : List (List PathStep)) :
    List Mention → List MentionCandidates → Except String (List DisambiguatedMention)
  | [], _ => .ok []
  | _ :: _, [] => .ok []
  | m :: ms, sel :: ss => do
    let ctx ← extractContext text m.start m.stop
    let chosen ← parseDecision
      (decisionFn { surface := sel.surface, context := ctx,
                    summary := summary, candidates := sel.candidates })
      sel.candidates
    let rest ← decideCandidates decisionFn text summary paths ms ss
    .ok ({ surface := m.surface, label := m.label, start := m.start,
           stop := m.stop, confidence := m.confidence, chosen := chosen,
           evidence := { paths := paths,
                         summary := if summary = "" then none
                                    else some summary } } :: rest)

/-- The analyze request fields the disambiguation engine reads
(dataclass `AnalyzeRequest`). -/
structure AnalyzeRequest where
  text : String
  top_k : Nat
  max_hops : Nat
  hub_threshold : Option Nat
  idempotence_key : Option String

/-- The disambiguation pipeline of `KnowledgeGraphService.analyze` in
fallback-graph mode (RDF serialization and file logging are external to the
engine): the disambiguated-mention list plus the tags of the request-log
events emitted along the way. -/
def analyzeCore (stub : LlmStub) (g : Graph) (req : AnalyzeRequest) :
    Except String (List DisambiguatedMention × List String) := do
  let mentions ← extractMentions stub.ner
  let sels ← selectCandidates g req.top_k mentions
  let sp := fun a b => gatewayShortestPath (some g) a b req.max_hops req.hub_threshold
  let paths := computePaths sp sels
  let (sentences, pathCalled) ← pathsToText stub.pathToText paths
  let (summary, sumCalled) := summarizePaths stub.summarize sentences
  let ds ← decideCandidates stub.decision req.text summary paths mentions sels
  .ok (ds,
    ["ollama_request", "ollama_response"]
      ++ sels.flatMap (fun _ => ["neo4j_request", "neo4j_response"])
      ++ (computePathsQueries sels).flatMap (fun q => "neo4j_request" ::
            (match collectPath sp q with | some _ => ["neo4j_response"] | none => []))
      ++ (if pathCalled then ["ollama_request", "ollama_response"] else [])
      ++ (if sumCalled then ["ollama_request", "ollama_response"] else [])
      ++ ds.map (fun _ => "ollama_response"))

/-- `analyze` with the nondeterministic `uuid4` draw made explicit: the
idempotence key (the request's, or the drawn uuid) is attached to every
logged event, and nothing else depends on it. -/
def analyzeModel (stub : LlmStub) (g : Graph) (req : AnalyzeRequest)
    (uuid : String) :
    Except String (List DisambiguatedMention × List (String × String)) :=
  let key := match req.idempotence_key with
    | some k => if k = "" then uuid else k
    | none => uuid
  (analyzeCore stub g req).map (fun r => (r.1, r.2.map (fun tag => (key, tag))))

/-- Example fallback graph with a directed edge either way between `"A"` and
`"B"`; searching `"alpha"` resolves to candidate `"A"` and `"beta"` to
`"B"`. -/
def exGraphAB : Graph :=
  [("A", [("related", "B", "beta")]), ("B", [("related", "A", "alpha")])]

/-- Example graph whose only edge points at a node that is not a key. -/
def exGraphDangling : Graph := [("A", [("related", "B", "beta")])]

/-- One mention holding two candidates that share one IRI. -/
def exDupSel : List MentionCandidates :=
  [{ surface := "m",
     candidates := [{ iri := "A", label := "a1", score := JVal.jnull },
                    { iri := "A", label := "a2", score := JVal.jnull }] }]

/-- Two mentions of two candidates each, all IRIs distinct. -/
def exSels22 : List MentionCandidates :=
  [{ surface := "m1",
     candidates := [{ iri := "A", label := "a", score := JVal.jnull },
                    { iri := "B", label := "b", score := JVal.jnull }] },
   { surface := "m2",
     candidates := [{ iri := "C", label := "c", score := JVal.jnull },
                    { iri := "D", label := "d", score := JVal.jnull }] }]

/-- A total shortest-path oracle answering every query with a one-edge path,
used to observe the collection order. -/
def spAll : String → String → Option (List PathStep) :=
  fun a b => some [{ subject_iri := a, subject_label := none,
                     predicate := "related", object_iri := b,
                     object_label := none }]

/-- Stub collaborator for the path-translation failure scenario: NER yields
two mentions, the path-to-text response is invalid JSON. -/
def exStubC5 : LlmStub :=
  { ner := LlmResponse.parsed (JVal.jobj [("mentions", JVal.jarr
      [JVal.jobj [("surface", JVal.jstr "alpha")],
       JVal.jobj [("surface", JVal.jstr "beta")]])])
    pathToText := fun _ => LlmResponse.invalidJson
    summarize := fun _ => none
    decision := fun _ => LlmResponse.absent }

/-- A plain analyze request with the source defaults. -/
def exReq : AnalyzeRequest :=
  { text := "alpha beta", top_k := 5, max_hops := 2, hub_threshold := none,
    idempotence_key := none }

/-! ## Theorems -/

/-! ## Correctness of the fallback breadth-first search -/


theorem IsPathFrom.eq_of_nil {g : Graph} {u v : String}
    (h : IsPathFrom g u v []) : u = v := by
  cases h; rfl

theorem IsPathFrom.snoc {g : Graph} {s u : String} {p : List PathStep}
    (h : IsPathFrom g s u p) :
    ∀ (r : Rel), r ∈ graphAdj g u → IsPathFrom g s r.2.1 (p ++ [mkStep u r]) := by
  induction h with
  | nil v => intro r hr; exact .cons v r.2.1 r [] hr (.nil r.2.1)
  | cons u' v' r' p' hr' _hp ih => intro r hr; exact .cons u' r.2.1 r' _ hr' (ih r hr)



theorem unvisitedEdges_nil_visited (g : Graph) : unvisitedEdges g [] = totalEdges g := by
  induction g with
  | nil => rfl
  | cons e rest ih => simp [unvisitedEdges, totalEdges, List.map_cons, List.sum_cons] at ih ⊢; omega

theorem unvisitedEdges_cons_le (g : Graph) (visited : List String) (v : String) :
    unvisitedEdges g (v :: visited) ≤ unvisitedEdges g visited := by
  induction g with
  | nil => exact Nat.le_refl _
  | cons e rest ih =>
    simp only [unvisitedEdges, List.mem_cons]
    by_cases h : e.1 ∈ visited
    · simp [h]; omega
    · by_cases h2 : e.1 = v <;> simp [h, h2] <;> omega

theorem adj_le_unvisited (g : Graph) (visited : List String) (v : String)
    (hv : v ∉ visited) :
    (graphAdj g v).length + unvisitedEdges g (v :: visited) ≤ unvisitedEdges g visited := by
  induction g with
  | nil => simp [graphAdj, unvisitedEdges, List.lookup]
  | cons e rest ih =>
    by_cases h : e.1 = v
    · have hbeq : (v == e.1) = true := beq_iff_eq.mpr h.symm
      have hadj : graphAdj (e :: rest) v = e.2 := by
        simp [graphAdj, List.lookup, hbeq]
      have h1 : (e.1 ∈ v :: visited) := by simp [h]
      have h2 : ¬ (e.1 ∈ visited) := by rw [h]; exact hv
      have := unvisitedEdges_cons_le rest visited v
      simp only [unvisitedEdges, hadj, if_pos h1, if_neg h2]
      omega
    · have hbeq : (v == e.1) = false := beq_eq_false_iff_ne.mpr (fun hh => h hh.symm)
      have hadj : graphAdj (e :: rest) v = graphAdj rest v := by
        simp [graphAdj, List.lookup, hbeq]
      have hmem : (e.1 ∈ v :: visited) ↔ (e.1 ∈ visited) := by
        simp [List.mem_cons, h]
      simp only [unvisitedEdges, hadj]
      by_cases h3 : e.1 ∈ visited
      · simp [h3, hmem.mpr h3]; omega
      · have : ¬ (e.1 ∈ v :: visited) := fun hc => h3 (hmem.mp hc)
        simp [h3, this]; omega


/-- Walking a path from a visited node along the closure invariant reaches the
queue (the target itself is never visited). -/
theorem bfs_walk (g : Graph) (t : String) (maxHops : Nat) (f : String → Nat)
    (visited : List String) (queue : List (String × List PathStep))
    (hclosure : ∀ v ∈ visited, ∀ r ∈ graphAdj g v,
      maxHops < f v + 1 ∨ (r.2.1 ∈ visited ∧ f r.2.1 ≤ f v + 1) ∨
        ∃ e ∈ queue, e.1 = r.2.1 ∧ e.2.length ≤ f v + 1)
    (htvis : t ∉ visited) :
    ∀ (q2 : List PathStep) (m : String) (k : Nat), IsPathFrom g m t q2 →
      m ∈ visited → f m ≤ k → k + q2.length ≤ maxHops →
      ∃ e ∈ queue, e.2.length ≤ k + q2.length := by
  intro q2
  induction q2 with
  | nil =>
    intro m k hpath hm _ _
    exact absurd (hm) (by rw [hpath.eq_of_nil]; exact htvis)
  | cons st rest ih =>
    intro m k hpath hm hfm hbound
    cases hpath with
    | cons _ _ r _ hr hp =>
      rcases hclosure m hm r hr with h1 | h2 | h3
      · exact absurd h1 (by simp only [List.length_cons] at hbound; omega)
      · obtain ⟨hmem, hle⟩ := h2
        obtain ⟨e, he, hlen⟩ := ih r.2.1 (k + 1) hp hmem (by omega)
          (by simp only [List.length_cons] at hbound; omega)
        exact ⟨e, he, by simp only [List.length_cons]; omega⟩
      · obtain ⟨e, he, _, hlen⟩ := h3
        exact ⟨e, he, by simp only [List.length_cons]; omega⟩

/-- With an empty queue, the invariant rules out every connecting path within
the hop bound. -/
theorem bfs_empty_none (g : Graph) (s t : String) (maxHops : Nat)
    (f : String → Nat) (visited : List String)
    (hinv : BfsInv g s t maxHops f visited []) :
    ∀ q, IsPathFrom g s t q → maxHops < q.length := by
  intro q hq
  by_contra hle
  push_neg at hle
  obtain ⟨m, k, q2, hk, hq2, hdisj⟩ := hinv.reach q hq hle
  rcases hdisj with ⟨hm, hfm⟩ | ⟨e, he, _⟩
  · obtain ⟨e, he, _⟩ := bfs_walk g t maxHops f visited [] hinv.closure
      hinv.targetNotVis q2 m k hq2 hm hfm (by omega)
    exact absurd he (List.not_mem_nil e)
  · exact absurd he (List.not_mem_nil e)

theorem pairwise_of_mem {α : Type} {P : α → Prop} {R : α → α → Prop}
    (hR : ∀ a b, P a → P b → R a b) :
    ∀ (l : List α), (∀ a ∈ l, P a) → l.Pairwise R := by
  intro l
  induction l with
  | nil => intro _; exact List.Pairwise.nil
  | cons a rest ih =>
    intro h
    exact List.Pairwise.cons
      (fun b hb => hR a b (h a (List.mem_cons_self a rest)) (h b (List.mem_cons_of_mem a hb)))
      (ih (fun b hb => h b (List.mem_cons_of_mem a hb)))

/-- Full specification of the breadth-first loop: under the invariant and with
fuel at least the measure, a `none` result means no connecting path within the
hop bound exists, and a `some` result is a connecting path within the bound of
minimal length among all connecting paths. -/
theorem bfsLoop_spec (g : Graph) (s t : String) (maxHops : Nat) :
    ∀ (fuel : Nat) (visited : List String)
      (queue : List (String × List PathStep)) (f : String → Nat),
      BfsInv g s t maxHops f visited queue →
      bfsMeasure g visited queue ≤ fuel →
      ((bfsLoop g t maxHops fuel visited queue = none →
          ∀ q, IsPathFrom g s t q → maxHops < q.length) ∧
        (∀ p, bfsLoop g t maxHops fuel visited queue = some p →
          IsPathFrom g s t p ∧ p.length ≤ maxHops ∧
            ∀ q, IsPathFrom g s t q → p.length ≤ q.length)) := by
  intro fuel
  induction fuel with
  | zero =>
    intro visited queue f hinv hm
    have hq : queue = [] := by
      cases queue with
      | nil => rfl
      | cons a l => exfalso; simp [bfsMeasure] at hm
    subst hq
    refine ⟨fun _ => bfs_empty_none g s t maxHops f visited hinv, ?_⟩
    intro p hp
    simp [bfsLoop] at hp
  | succ n ih =>
    intro visited queue f hinv hm
    cases queue with
    | nil =>
      refine ⟨fun _ => bfs_empty_none g s t maxHops f visited hinv, ?_⟩
      intro p hp
      simp [bfsLoop] at hp
    | cons head rest =>
      obtain ⟨current, path⟩ := head
      have hheadmem : (current, path) ∈ (current, path) :: rest :=
        List.mem_cons_self _ _
      have hmono := List.pairwise_cons.mp hinv.mono
      by_cases h1 : maxHops < path.length
      · -- iteration dropped by the hop bound
        have hstep : bfsLoop g t maxHops (n + 1) visited ((current, path) :: rest)
            = bfsLoop g t maxHops n visited rest := by
          simp [bfsLoop, h1]
        rw [hstep]
        refine ih visited rest f ?_ ?_
        · refine ⟨fun e he => hinv.sound e (List.mem_cons_of_mem _ he), hmono.2,
            fun v hv e he => hinv.visLe v hv e (List.mem_cons_of_mem _ he),
            hinv.visHops, hinv.targetNotVis, ?_, ?_⟩
          · intro v hv r hr
            rcases hinv.closure v hv r hr with hc | hc | ⟨e, he, heq, hlen⟩
            · exact Or.inl hc
            · exact Or.inr (Or.inl hc)
            · rcases List.mem_cons.mp he with he1 | he2
              · subst he1
                have := hinv.visHops v hv
                exact Or.inl (by simp only at hlen; omega)
              · exact Or.inr (Or.inr ⟨e, he2, heq, hlen⟩)
          · intro q hq hqlen
            obtain ⟨m, k, q2, hk, hq2, hdisj⟩ := hinv.reach q hq hqlen
            rcases hdisj with hvis | ⟨e, he, heq, hlen⟩
            · exact ⟨m, k, q2, hk, hq2, Or.inl hvis⟩
            · rcases List.mem_cons.mp he with he1 | he2
              · exfalso
                subst he1
                simp only at hlen
                omega
              · exact ⟨m, k, q2, hk, hq2, Or.inr ⟨e, he2, heq, hlen⟩⟩
        · simp only [bfsMeasure, List.length_cons] at hm ⊢
          omega
      · by_cases h2 : current = t
        · -- target popped: return the path
          have hstep : bfsLoop g t maxHops (n + 1) visited ((current, path) :: rest)
              = some path := by
            simp [bfsLoop, h1, h2]
          rw [hstep]
          refine ⟨fun hc => absurd hc (by simp), ?_⟩
          intro p hp
          have hp' : p = path := by cases hp; rfl
          subst hp'
          have hsound : IsPathFrom g s t p := by
            have := hinv.sound (current, p) hheadmem
            rwa [h2] at this
          refine ⟨hsound, by omega, ?_⟩
          intro q hq
          by_cases hql : q.length ≤ maxHops
          · obtain ⟨m, k, q2, hk, hq2, hdisj⟩ := hinv.reach q hq hql
            rcases hdisj with ⟨hmvis, hfm⟩ | ⟨e, he, heq, hlen⟩
            · obtain ⟨e, he, hlen⟩ := bfs_walk g t maxHops f visited
                ((current, p) :: rest) hinv.closure hinv.targetNotVis
                q2 m k hq2 hmvis hfm (by omega)
              rcases List.mem_cons.mp he with he1 | he2
              · subst he1; simp only at hlen; omega
              · have := (hmono.1 e he2).1
                simp only at this
                omega
            · rcases List.mem_cons.mp he with he1 | he2
              · subst he1; simp only at hlen; omega
              · have := (hmono.1 e he2).1
                simp only at this
                omega
          · omega
        · by_cases h3 : current ∈ visited
          · -- already-visited node dropped
            have hstep : bfsLoop g t maxHops (n + 1) visited ((current, path) :: rest)
                = bfsLoop g t maxHops n visited rest := by
              simp [bfsLoop, h1, h2, h3]
            rw [hstep]
            refine ih visited rest f ?_ ?_
            · refine ⟨fun e he => hinv.sound e (List.mem_cons_of_mem _ he), hmono.2,
                fun v hv e he => hinv.visLe v hv e (List.mem_cons_of_mem _ he),
                hinv.visHops, hinv.targetNotVis, ?_, ?_⟩
              · intro v hv r hr
                rcases hinv.closure v hv r hr with hc | hc | ⟨e, he, heq, hlen⟩
                · exact Or.inl hc
                · exact Or.inr (Or.inl hc)
                · rcases List.mem_cons.mp he with he1 | he2
                  · subst he1
                    simp only at heq hlen
                    have hcf : f current ≤ path.length :=
                      hinv.visLe current h3 (current, path) hheadmem
                    refine Or.inr (Or.inl ?_)
                    rw [← heq]
                    exact ⟨h3, by omega⟩
                  · exact Or.inr (Or.inr ⟨e, he2, heq, hlen⟩)
              · intro q hq hqlen
                obtain ⟨m, k, q2, hk, hq2, hdisj⟩ := hinv.reach q hq hqlen
                rcases hdisj with hvis | ⟨e, he, heq, hlen⟩
                · exact ⟨m, k, q2, hk, hq2, Or.inl hvis⟩
                · rcases List.mem_cons.mp he with he1 | he2
                  · subst he1
                    simp only at heq hlen
                    have hcf : f current ≤ path.length :=
                      hinv.visLe current h3 (current, path) hheadmem
                    refine ⟨m, k, q2, hk, hq2, Or.inl ?_⟩
                    rw [← heq]
                    exact ⟨h3, by omega⟩
                  · exact ⟨m, k, q2, hk, hq2, Or.inr ⟨e, he2, heq, hlen⟩⟩
            · simp only [bfsMeasure, List.length_cons] at hm ⊢
              omega
          · -- expansion of a fresh node
            have hstep : bfsLoop g t maxHops (n + 1) visited ((current, path) :: rest)
                = bfsLoop g t maxHops n (current :: visited)
                    (rest ++ (graphAdj g current).map
                      (fun r => (r.2.1, path ++ [mkStep current r]))) := by
              simp [bfsLoop, h1, h2, h3]
            rw [hstep]
            have hsoundhead : IsPathFrom g s current path :=
              hinv.sound (current, path) hheadmem
            refine ih (current :: visited)
              (rest ++ (graphAdj g current).map
                (fun r => (r.2.1, path ++ [mkStep current r])))
              (fun x => if x = current then path.length else f x) ?_ ?_
            · refine ⟨?_, ?_, ?_, ?_, ?_, ?_, ?_⟩
              · -- sound
                intro e he
                rcases List.mem_append.mp he with he1 | he2
                · exact hinv.sound e (List.mem_cons_of_mem _ he1)
                · obtain ⟨r, hr, hre⟩ := List.mem_map.mp he2
                  subst hre
                  exact hsoundhead.snoc r hr
              · -- mono
                rw [List.pairwise_append]
                refine ⟨hmono.2, ?_, ?_⟩
                · refine pairwise_of_mem
                    (P := fun e => e.2.length = path.length + 1)
                    (fun a b ha hb => by omega) _ ?_
                  intro a ha
                  obtain ⟨r, hr, hre⟩ := List.mem_map.mp ha
                  subst hre
                  simp
                · intro a ha b hb
                  obtain ⟨r, hr, hre⟩ := List.mem_map.mp hb
                  subst hre
                  have := hmono.1 a ha
                  simp only at this ⊢
                  simp only [List.length_append, List.length_cons,
                    List.length_nil]
                  omega
              · -- visLe
                intro v hv e he
                rcases List.mem_cons.mp hv with hv1 | hv2
                · subst hv1
                  simp only [if_pos rfl]
                  rcases List.mem_append.mp he with he1 | he2
                  · exact (hmono.1 e he1).1
                  · obtain ⟨r, hr, hre⟩ := List.mem_map.mp he2
                    subst hre
                    simp
                · have hne : v ≠ current := fun hc => h3 (hc ▸ hv2)
                  rw [if_neg hne]
                  rcases List.mem_append.mp he with he1 | he2
                  · exact hinv.visLe v hv2 e (List.mem_cons_of_mem _ he1)
                  · obtain ⟨r, hr, hre⟩ := List.mem_map.mp he2
                    subst hre
                    have := hinv.visLe v hv2 (current, path) hheadmem
                    simp only at this ⊢
                    simp only [List.length_append, List.length_cons,
                      List.length_nil]
                    omega
              · -- visHops
                intro v hv
                rcases List.mem_cons.mp hv with hv1 | hv2
                · subst hv1; rw [if_pos rfl]; omega
                · have hne : v ≠ current := fun hc => h3 (hc ▸ hv2)
                  rw [if_neg hne]
                  exact hinv.visHops v hv2
              · -- targetNotVis
                intro hc
                rcases List.mem_cons.mp hc with hc1 | hc2
                · exact h2 hc1.symm
                · exact hinv.targetNotVis hc2
              · -- closure
                intro v hv r hr
                rcases List.mem_cons.mp hv with hv1 | hv2
                · subst hv1
                  refine Or.inr (Or.inr ⟨(r.2.1, path ++ [mkStep v r]), ?_, rfl, ?_⟩)
                  · exact List.mem_append_right _ (List.mem_map.mpr ⟨r, hr, rfl⟩)
                  · simp [if_pos rfl]
                · have hne : v ≠ current := fun hc => h3 (hc ▸ hv2)
                  rcases hinv.closure v hv2 r hr with hc | ⟨hw, hwle⟩ | ⟨e, he, heq, hlen⟩
                  · exact Or.inl (by rw [if_neg hne]; exact hc)
                  · have hwne : r.2.1 ≠ current := fun hcc => h3 (hcc ▸ hw)
                    exact Or.inr (Or.inl ⟨List.mem_cons_of_mem _ hw,
                      by rw [if_neg hwne, if_neg hne]; exact hwle⟩)
                  · rcases List.mem_cons.mp he with he1 | he2
                    · subst he1
                      simp only at heq hlen
                      refine Or.inr (Or.inl ⟨?_, ?_⟩)
                      · rw [← heq]; exact List.mem_cons_self _ _
                      · rw [← heq, if_pos rfl, if_neg hne]
                        omega
                    · exact Or.inr (Or.inr ⟨e, List.mem_append_left _ he2, heq,
                        by rw [if_neg hne]; exact hlen⟩)
              · -- reach
                intro q hq hqlen
                obtain ⟨m, k, q2, hk, hq2, hdisj⟩ := hinv.reach q hq hqlen
                rcases hdisj with ⟨hmvis, hfm⟩ | ⟨e, he, heq, hlen⟩
                · have hne : m ≠ current := fun hc => h3 (hc ▸ hmvis)
                  exact ⟨m, k, q2, hk, hq2,
                    Or.inl ⟨List.mem_cons_of_mem _ hmvis, by rw [if_neg hne]; exact hfm⟩⟩
                · rcases List.mem_cons.mp he with he1 | he2
                  · subst he1
                    simp only at heq hlen
                    refine ⟨m, k, q2, hk, hq2, Or.inl ⟨?_, ?_⟩⟩
                    · rw [← heq]; exact List.mem_cons_self _ _
                    · rw [← heq, if_pos rfl]
                      omega
                  · exact ⟨m, k, q2, hk, hq2,
                      Or.inr ⟨e, List.mem_append_left _ he2, heq, hlen⟩⟩
            · -- measure decreases
              have hadj := adj_le_unvisited g visited current h3
              simp only [bfsMeasure, List.length_append, List.length_map,
                List.length_cons] at hm ⊢
              omega


/-- The breadth-first invariant holds at loop entry. -/
theorem bfsInv_init (g : Graph) (s t : String) (maxHops : Nat) :
    BfsInv g s t maxHops (fun _ => 0) [] [(s, [])] := by
  refine ⟨?_, ?_, ?_, ?_, ?_, ?_, ?_⟩
  · intro e he
    rw [List.mem_singleton] at he
    subst he
    exact IsPathFrom.nil s
  · exact List.pairwise_singleton _ _
  · intro v hv
    exact absurd hv (List.not_mem_nil v)
  · intro v hv
    exact absurd hv (List.not_mem_nil v)
  · exact List.not_mem_nil t
  · intro v hv r hr
    exact absurd hv (List.not_mem_nil v)
  · intro q hq hlen
    exact ⟨s, 0, q, by omega, hq,
      Or.inr ⟨(s, []), List.mem_singleton.mpr rfl, rfl, by simp⟩⟩

/-- Specification of `_shortest_path_fallback`: any returned path is a
connecting path within the hop bound of minimal length among all connecting
paths, and if no connecting path within the bound exists the result is
absent. -/
theorem shortestPathFallback_spec (g : Graph) (source target : String)
    (maxHops : Nat) :
    (∀ p, shortestPathFallback g source target maxHops = some p →
        IsPathFrom g source target p ∧ p.length ≤ maxHops ∧
          ∀ q, IsPathFrom g source target q → p.length ≤ q.length) ∧
    ((¬ ∃ q, IsPathFrom g source target q ∧ q.length ≤ maxHops) →
        shortestPathFallback g source target maxHops = none) := by
  unfold shortestPathFallback
  by_cases hg : (graphHasKey g source && graphHasKey g target) = true
  · rw [if_pos hg]
    have hmeas : bfsMeasure g [] [(source, [])] ≤ totalEdges g + 1 := by
      unfold bfsMeasure
      rw [unvisitedEdges_nil_visited]
      simp only [List.length_singleton]
      omega
    have hspec := bfsLoop_spec g source target maxHops (totalEdges g + 1) []
      [(source, [])] (fun _ => 0) (bfsInv_init g source target maxHops) hmeas
    refine ⟨fun p hp => hspec.2 p hp, ?_⟩
    intro hno
    cases hres : bfsLoop g target maxHops (totalEdges g + 1) [] [(source, [])] with
    | none => rfl
    | some p =>
      obtain ⟨hp1, hp2, _⟩ := hspec.2 p hres
      exact absurd ⟨p, hp1, hp2⟩ hno
  · rw [if_neg hg]
    exact ⟨fun p hp => absurd hp (by simp), fun _ => rfl⟩

/-- Completeness of the fallback search (with both endpoints stored, every
connecting path within the bound forces a result, no longer than it): the
fuel supplied by `shortestPathFallback` is sufficient. -/
theorem shortestPathFallback_complete (g : Graph) (source target : String)
    (maxHops : Nat) (hs : graphHasKey g source = true)
    (ht : graphHasKey g target = true) (q : List PathStep)
    (hq : IsPathFrom g source target q) (hlen : q.length ≤ maxHops) :
    ∃ p, shortestPathFallback g source target maxHops = some p ∧
      p.length ≤ q.length := by
  unfold shortestPathFallback
  have hg : (graphHasKey g source && graphHasKey g target) = true := by
    rw [hs, ht]; rfl
  rw [if_pos hg]
  have hmeas : bfsMeasure g [] [(source, [])] ≤ totalEdges g + 1 := by
    unfold bfsMeasure
    rw [unvisitedEdges_nil_visited]
    simp only [List.length_singleton]
    omega
  have hspec := bfsLoop_spec g source target maxHops (totalEdges g + 1) []
    [(source, [])] (fun _ => 0) (bfsInv_init g source target maxHops) hmeas
  cases hres : bfsLoop g target maxHops (totalEdges g + 1) [] [(source, [])] with
  | none => exact absurd (hspec.1 hres q hq) (by omega)
  | some p => exact ⟨p, rfl, (hspec.2 p hres).2.2 q hq⟩

/-- Claim C2: for every in-memory fallback graph, source, target and
`maxHops ≥ 1`, the fallback shortest-path search returns either absent or a
connecting path with at most `maxHops` edges that is minimal among all
connecting paths, and when no connecting path of at most `maxHops` edges
exists it returns absent (being a total Lean function, it raises no
error). -/
theorem claim_C2_fallback_shortest_path (g : Graph) (source target : String)
    (maxHops : Nat) (hm : 1 ≤ maxHops) :
    (shortestPathFallback g source target maxHops = none ∨
      ∃ p, shortestPathFallback g source target maxHops = some p ∧
        IsPathFrom g source target p ∧ p.length ≤ maxHops ∧
        ∀ q, IsPathFrom g source target q → p.length ≤ q.length) ∧
    ((¬ ∃ q, IsPathFrom g source target q ∧ q.length ≤ maxHops) →
      shortestPathFallback g source target maxHops = none) := by
  obtain ⟨h1, h2⟩ := shortestPathFallback_spec g source target maxHops
  refine ⟨?_, h2⟩
  cases hres : shortestPathFallback g source target maxHops with
  | none => exact Or.inl rfl
  | some p => exact Or.inr ⟨p, rfl, h1 p hres⟩

/-- Witness for C2 at the concrete two-node graph with `maxHops = 2`. -/
theorem claim_C2_witness : 1 ≤ 2 ∧
    ((shortestPathFallback exGraphAB "A" "B" 2 = none ∨
      ∃ p, shortestPathFallback exGraphAB "A" "B" 2 = some p ∧
        IsPathFrom exGraphAB "A" "B" p ∧ p.length ≤ 2 ∧
        ∀ q, IsPathFrom exGraphAB "A" "B" q → p.length ≤ q.length) ∧
    ((¬ ∃ q, IsPathFrom exGraphAB "A" "B" q ∧ q.length ≤ 2) →
      shortestPathFallback exGraphAB "A" "B" 2 = none)) :=
  ⟨by decide, claim_C2_fallback_shortest_path exGraphAB "A" "B" 2 (by decide)⟩

/-- Claim C7: in the in-memory fallback mode the `hubThreshold` parameter is
not enforced: for every fallback configuration, endpoints, hop bound and any
two threshold values (including absent), `shortest_path` returns the same
result; passing a threshold is accepted without error. -/
theorem claim_C7_hub_threshold_ignored (fallbackGraph : Option Graph)
    (source target : String) (maxHops : Nat) (t1 t2 : Option Nat) :
    gatewayShortestPath fallbackGraph source target maxHops t1 =
      gatewayShortestPath fallbackGraph source target maxHops t2 := rfl

/-- Claim C10: in fallback mode `shortest_path` returns absent whenever the
source or the target is not a key of the adjacency map, even when the target
is reachable as the object of a stored relation — witness the one-edge graph
whose target `"B"` is reachable from `"A"` yet not a key, so absent does not
imply that no connecting path exists in the stored edges. -/
theorem claim_C10_membership_guard :
    (∀ (g : Graph) (source target : String) (maxHops : Nat),
        graphHasKey g source = false ∨ graphHasKey g target = false →
        shortestPathFallback g source target maxHops = none) ∧
    IsPathFrom exGraphDangling "A" "B" [mkStep "A" ("related", "B", "beta")] ∧
    shortestPathFallback exGraphDangling "A" "B" 2 = none := by
  refine ⟨?_, ?_, by decide⟩
  · intro g source target maxHops h
    unfold shortestPathFallback
    rcases h with h | h <;> simp [h]
  · exact IsPathFrom.cons "A" "B" ("related", "B", "beta") []
      (by simp [graphAdj, exGraphDangling, List.lookup]) (IsPathFrom.nil "B")

/-- Witness for C10's guard at a concrete unstored source. -/
theorem claim_C10_witness : shortestPathFallback exGraphDangling "Z" "A" 2 = none :=
  claim_C10_membership_guard.1 exGraphDangling "Z" "A" 2 (Or.inl (by decide))

/-- Appending a constant-length image per element. -/
theorem flatMap_length_const {α β : Type} (l : List α) (f : α → List β) (n : Nat)
    (h : ∀ a ∈ l, (f a).length = n) : (l.flatMap f).length = l.length * n := by
  induction l with
  | nil => simp
  | cons a rest ih =>
    simp only [List.flatMap_cons, List.length_append, List.length_cons]
    rw [h a (List.mem_cons_self a rest), ih (fun b hb => h b (List.mem_cons_of_mem a hb))]
    ring

/-- Length of the inner cross-mention loop, in additive form: the candidates
of the mention at the candidate's own index are skipped exactly once. -/
theorem crossQueriesAux_length_add (c : Candidate) (idx K : Nat)
    (sels : List MentionCandidates) :
    ∀ (oidx : Nat) (rest : List MentionCandidates),
      (∀ sel ∈ rest, sel.candidates.length = K) →
      (crossQueriesAux c idx oidx rest).length +
          (if oidx ≤ idx ∧ idx < oidx + rest.length then K else 0) =
        K * rest.length := by
  intro oidx rest
  induction rest generalizing oidx with
  | nil =>
    intro _
    have hc : ¬ (oidx ≤ idx ∧ idx < oidx + ([] : List MentionCandidates).length) := by
      simp only [List.length_nil]
      omega
    simp [crossQueriesAux, hc]
  | cons other rest ih =>
    intro h
    have hK := h other (List.mem_cons_self _ _)
    have ih' := ih (oidx + 1) (fun sel hs => h sel (List.mem_cons_of_mem _ hs))
    have hmul : K * (rest.length + 1) = K * rest.length + K := by ring
    simp only [crossQueriesAux, List.length_append, List.length_cons]
    by_cases h1 : idx = oidx
    · have hc1 : oidx ≤ idx ∧ idx < oidx + (rest.length + 1) := by omega
      have hc2 : ¬ (oidx + 1 ≤ idx ∧ idx < oidx + 1 + rest.length) := by omega
      rw [if_pos hc1]
      rw [if_neg hc2, Nat.add_zero] at ih'
      rw [if_pos h1]
      simp only [List.length_nil]
      omega
    · rw [if_neg h1]
      simp only [List.length_map, hK]
      by_cases h2 : oidx + 1 ≤ idx ∧ idx < oidx + 1 + rest.length
      · have hc1 : oidx ≤ idx ∧ idx < oidx + (rest.length + 1) := by omega
        rw [if_pos hc1]
        rw [if_pos h2] at ih'
        omega
      · have hc1 : ¬ (oidx ≤ idx ∧ idx < oidx + (rest.length + 1)) := by omega
        rw [if_neg hc1]
        rw [if_neg h2, Nat.add_zero] at ih'
        omega

/-- Length of the intra-mention loop, in additive form: with pairwise-distinct
IRIs, exactly the candidate itself is skipped. -/
theorem intra_flatMap_length (c : Candidate) :
    ∀ (l : List Candidate), c ∈ l → (l.map (fun x => x.iri)).Nodup →
      (l.flatMap (fun oc => if oc.iri = c.iri then []
          else [(c.iri, oc.iri)])).length + 1 = l.length := by
  intro l
  induction l with
  | nil => intro hc _; exact absurd hc (List.not_mem_nil c)
  | cons x rest ih =>
    intro hc hnd
    rw [List.map_cons, List.nodup_cons] at hnd
    rcases List.mem_cons.mp hc with hc1 | hc2
    · have hxc : x.iri = c.iri := by rw [hc1]
      have hall : ∀ (l2 : List Candidate), (∀ oc ∈ l2, oc.iri ≠ c.iri) →
          (l2.flatMap (fun oc => if oc.iri = c.iri then []
              else [(c.iri, oc.iri)])).length = l2.length := by
        intro l2
        induction l2 with
        | nil => intro _; rfl
        | cons y r2 ih2 =>
          intro hy
          rw [List.flatMap_cons, List.length_append,
            if_neg (hy y (List.mem_cons_self _ _)),
            ih2 (fun z hz => hy z (List.mem_cons_of_mem _ hz))]
          simp only [List.length_cons, List.length_nil]
          omega
      have hrest : ∀ oc ∈ rest, oc.iri ≠ c.iri := by
        intro oc hoc heq
        exact hnd.1 (by rw [hxc, ← heq]; exact List.mem_map.mpr ⟨oc, hoc, rfl⟩)
      rw [List.flatMap_cons, if_pos hxc, List.nil_append, List.length_cons,
        hall rest hrest]
    · have hxc : ¬ x.iri = c.iri := by
        intro heq
        exact hnd.1 (heq ▸ List.mem_map.mpr ⟨c, hc2, rfl⟩)
      rw [List.flatMap_cons, if_neg hxc, List.length_append, List.length_cons]
      have := ih hc2 hnd.2
      simp only [List.length_cons, List.length_nil]
      omega

/-- Count of the queries issued by the outer loops, under per-mention uniform
candidate count `K` and pairwise-distinct IRIs. -/
theorem cpqAux_length (sels : List MentionCandidates) (M K : Nat)
    (hM : sels.length = M)
    (hK : ∀ sel ∈ sels, sel.candidates.length = K)
    (hnd : ∀ sel ∈ sels, (sel.candidates.map (fun x => x.iri)).Nodup) :
    ∀ (rest : List MentionCandidates) (idx : Nat),
      (∀ sel ∈ rest, sel ∈ sels) → idx + rest.length ≤ M →
      (computePathsQueriesAux sels idx rest).length =
        rest.length * (K * (K * (M - 1) + (K - 1))) := by
  intro rest
  induction rest with
  | nil =>
    intro idx _ _
    simp [computePathsQueriesAux]
  | cons sel rest ih =>
    intro idx hsub hle
    have hsel := hsub sel (List.mem_cons_self _ _)
    have hKsel := hK sel hsel
    have hndsel := hnd sel hsel
    have hlen : (sel :: rest).length = rest.length + 1 := by simp
    rw [hlen] at hle
    simp only [computePathsQueriesAux, List.length_append]
    rw [ih (idx + 1) (fun s hs => hsub s (List.mem_cons_of_mem _ hs)) (by omega)]
    have hhead : (sel.candidates.flatMap
        (fun c => crossQueriesAux c idx 0 sels ++ intraQueries c sel)).length =
        K * (K * (M - 1) + (K - 1)) := by
      rw [flatMap_length_const _ _ (K * (M - 1) + (K - 1)) ?_, hKsel]
      intro c hcmem
      rw [List.length_append]
      have hcross := crossQueriesAux_length_add c idx K sels 0 sels hK
      have hcond : 0 ≤ idx ∧ idx < 0 + sels.length := by
        constructor
        · omega
        · rw [hM]; omega
      rw [if_pos hcond] at hcross
      have hintra := intra_flatMap_length c sel.candidates hcmem hndsel
      have hM1 : 1 ≤ M := by omega
      have hmul : K * M = K * (M - 1) + K := by
        have hM' : M = (M - 1) + 1 := by omega
        calc K * M = K * ((M - 1) + 1) := by rw [← hM']
          _ = K * (M - 1) + K := by ring
      rw [hM] at hcross
      unfold intraQueries
      omega
    rw [hhead, hlen]
    ring

/-- Claim C1 (amended): `_compute_paths` issues `M·(M−1)·K²` cross-mention
queries plus, per mention, one intra-mention query per ordered pair of
candidates with distinct IRIs — `K·(K−1)` per mention when the mention's `K`
candidate IRIs are pairwise distinct. -/
theorem claim_C1_query_count (sels : List MentionCandidates) (M K : Nat)
    (hM : sels.length = M)
    (hK : ∀ sel ∈ sels, sel.candidates.length = K)
    (hnd : ∀ sel ∈ sels, (sel.candidates.map (fun x => x.iri)).Nodup) :
    (computePathsQueries sels).length =
      M * (M - 1) * K * K + M * (K * (K - 1)) := by
  unfold computePathsQueries
  rw [cpqAux_length sels M K hM hK hnd sels 0 (fun s hs => hs) (by omega), hM]
  ring

/-- Witness for the amended C1 at two mentions of two distinct-IRI candidates
each: `2·1·2·2 + 2·(2·1) = 12` queries. -/
theorem claim_C1_witness :
    (computePathsQueries exSels22).length =
      2 * (2 - 1) * 2 * 2 + 2 * (2 * (2 - 1)) :=
  claim_C1_query_count exSels22 2 2 rfl (by decide) (by decide)

/-- Claim C1 counterexample: one mention with two candidates sharing one IRI
issues no intra-mention query at all, while the claim's count
`M·(M−1)·K² + K·(K−1)` demands two. -/
theorem claim_C1_counterexample :
    (computePathsQueries exDupSel).length = 0 ∧
    (computePathsQueries exDupSel).length ≠ 1 * (1 - 1) * 2 * 2 + 2 * (2 - 1) := by
  constructor
  · decide
  · decide

/-- `filterMap` distributes over `flatMap`. -/
theorem filterMap_flatMap {α β γ : Type} (l : List α) (f : α → List β)
    (g : β → Option γ) :
    (l.flatMap f).filterMap g = l.flatMap (fun a => (f a).filterMap g) := by
  induction l with
  | nil => rfl
  | cons a rest ih =>
    simp only [List.flatMap_cons, List.filterMap_append, ih]

/-- The counter-indexed cross-mention loop equals its combinator
formulation over the enumerated selections. -/
theorem crossQueriesAux_eq_spec (c : Candidate) (idx : Nat) :
    ∀ (oidx : Nat) (rest : List MentionCandidates),
      crossQueriesAux c idx oidx rest =
        ((rest.enumFrom oidx).filter (fun p => p.1 ≠ idx)).flatMap
          (fun p => p.2.candidates.map (fun oc => (c.iri, oc.iri))) := by
  intro oidx rest
  induction rest generalizing oidx with
  | nil => rfl
  | cons other rest ih =>
    simp only [crossQueriesAux, List.enumFrom, List.filter_cons]
    by_cases h1 : idx = oidx
    · have hd : (decide ((oidx, other).1 ≠ idx)) = false := by
        simp [h1.symm]
      rw [if_pos h1, hd]
      simp only [List.nil_append, Bool.false_eq_true, if_false]
      exact ih (oidx + 1)
    · have hd : (decide ((oidx, other).1 ≠ idx)) = true := by
        simp
        exact fun hc => h1 hc.symm
      rw [if_neg h1, hd]
      simp only [if_true, List.flatMap_cons]
      rw [ih (oidx + 1)]

/-- The cross-mention loop started at counter `0` is `specCross`. -/
theorem crossQueriesAux_eq0 (sels : List MentionCandidates) (idx : Nat)
    (c : Candidate) :
    crossQueriesAux c idx 0 sels = specCross sels idx c := by
  rw [crossQueriesAux_eq_spec c idx 0 sels]
  rfl

/-- The intra-mention loop is `specIntra`. -/
theorem intraQueries_eq_specIntra (c : Candidate) (sel : MentionCandidates) :
    intraQueries c sel = specIntra sel c := by
  unfold intraQueries specIntra
  induction sel.candidates with
  | nil => rfl
  | cons x rest ih =>
    simp only [List.flatMap_cons, List.filter_cons]
    by_cases h : x.iri = c.iri
    · have hd : (decide (x.iri ≠ c.iri)) = false := by simp [h]
      rw [if_pos h, hd]
      simp only [List.nil_append, Bool.false_eq_true, if_false]
      exact ih
    · have hd : (decide (x.iri ≠ c.iri)) = true := by simp [h]
      rw [if_neg h, hd]
      simp only [if_true, List.map_cons]
      rw [ih]
      rfl

/-- The outer loops of `_compute_paths` as a combinator expression over the
enumerated selections. -/
theorem cpqAux_eq_enum (sels : List MentionCandidates) :
    ∀ (oidx : Nat) (rest : List MentionCandidates),
      computePathsQueriesAux sels oidx rest =
        (rest.enumFrom oidx).flatMap (fun p => p.2.candidates.flatMap
          (fun c => crossQueriesAux c p.1 0 sels ++ intraQueries c p.2)) := by
  intro oidx rest
  induction rest generalizing oidx with
  | nil => rfl
  | cons sel rest ih =>
    simp only [computePathsQueriesAux, List.enumFrom, List.flatMap_cons]
    rw [ih (oidx + 1)]

/-- Claim C4 (amended): the evidence list is collected per candidate — outer
loop over mentions in input order, then that mention's candidates in order;
for each candidate first its cross-mention pairs (other mentions in input
order, their candidates in order), then its intra-mention pairs (same-mention
candidates with a different IRI, in order).  Intra-mention evidence of an
earlier candidate therefore precedes cross-mention evidence of later
candidates. -/
theorem claim_C4_evidence_order (sp : String → String → Option (List PathStep))
    (sels : List MentionCandidates) :
    computePaths sp sels = perCandidateEvidence sp sels := by
  unfold computePaths computePathsQueries perCandidateEvidence
  rw [cpqAux_eq_enum sels 0 sels, filterMap_flatMap]
  simp only [filterMap_flatMap, crossQueriesAux_eq0, intraQueries_eq_specIntra,
    List.enum]

/-- Claim C4 counterexample: with two mentions of two candidates each and a
total path oracle, the collected evidence is not in the claimed global order
(all cross-mention pairs before all intra-mention pairs): the first
candidate's intra-mention path precedes the second candidate's cross-mention
paths. -/
theorem claim_C4_counterexample :
    computePaths spAll exSels22 ≠ claimedGlobalEvidence spAll exSels22 := by
  decide

/-- Reduction of the `Except` monad bind on a success value. -/
theorem exceptBind_ok {e a b : Type} (x : a) (f : a → Except e b) :
    (Except.ok x : Except e a) >>= f = f x := rfl

/-- Reduction of the `Except` monad bind on an error value. -/
theorem exceptBind_err {e a b : Type} (err : e) (f : a → Except e b) :
    (Except.error err : Except e a) >>= f = Except.error err := rfl

/-- Claim C3 (amended): for an absent or invalid-JSON decision response the
parser returns the first retrieved candidate, or no choice when the candidate
list is empty, raising nothing; for a JSON object whose identifier is missing
or falsy it returns the first candidate when the list is non-empty, but with
an empty list it instead constructs a candidate with a null identifier; for
valid JSON that is not an object it raises an attribute error at
`data.get`. -/
theorem claim_C3_decision_fallback (cands : List Candidate) :
    parseDecision LlmResponse.absent cands =
        Except.ok (cands.head?.map Candidate.toPy) ∧
    parseDecision LlmResponse.invalidJson cands =
        Except.ok (cands.head?.map Candidate.toPy) ∧
    (∀ fields, ((fields.lookup "iri").getD JVal.jnull).falsy = true →
        cands ≠ [] →
        parseDecision (LlmResponse.parsed (JVal.jobj fields)) cands =
          Except.ok (cands.head?.map Candidate.toPy)) ∧
    (∀ fields, ((fields.lookup "iri").getD JVal.jnull).falsy = true →
        parseDecision (LlmResponse.parsed (JVal.jobj fields)) [] =
          Except.ok (some { iri := (fields.lookup "iri").getD JVal.jnull
                            label := if ((fields.lookup "label").getD JVal.jnull).falsy
                                     then JVal.jstr ""
                                     else (fields.lookup "label").getD JVal.jnull
                            score := (fields.lookup "score").getD JVal.jnull })) ∧
    (∀ v, (∀ fields, v ≠ JVal.jobj fields) →
        parseDecision (LlmResponse.parsed v) cands =
          Except.error "AttributeError") := by
  refine ⟨rfl, rfl, ?_, ?_, ?_⟩
  · intro fields hf hne
    have hcond : (((fields.lookup "iri").getD JVal.jnull).falsy
        && !cands.isEmpty) = true := by
      rw [hf]
      simp only [Bool.true_and, Bool.not_eq_true]
      cases cands with
      | nil => exact absurd rfl hne
      | cons a l => rfl
    simp only [parseDecision, hcond, if_true]
  · intro fields hf
    have hcond : (((fields.lookup "iri").getD JVal.jnull).falsy
        && !(List.isEmpty ([] : List Candidate))) = false := by
      simp
    simp only [parseDecision, hcond, Bool.false_eq_true, if_false]
  · intro v hv
    cases v with
    | jnull => rfl
    | jbool b => rfl
    | jnum q => rfl
    | jstr s => rfl
    | jarr xs => rfl
    | jobj fields => exact absurd rfl (hv fields)

/-- Witness for the amended C3: an object lacking an identifier with a
non-empty candidate list falls back to the first candidate. -/
theorem claim_C3_witness :
    parseDecision (LlmResponse.parsed (JVal.jobj [("label", JVal.jstr "x")]))
        [{ iri := "A", label := "a", score := JVal.jnull }] =
      Except.ok (some (Candidate.toPy
        { iri := "A", label := "a", score := JVal.jnull })) :=
  (claim_C3_decision_fallback
      [{ iri := "A", label := "a", score := JVal.jnull }]).2.2.1
    [("label", JVal.jstr "x")] rfl (by simp)

/-- Claim C3 counterexample: a parseable object without an identifier paired
with an empty candidate list yields a constructed candidate with a null
identifier rather than no choice, and a valid-JSON non-object response raises
an attribute error instead of falling back. -/
theorem claim_C3_counterexample :
    parseDecision (LlmResponse.parsed (JVal.jobj [("label", JVal.jstr "x")])) [] =
      Except.ok (some { iri := JVal.jnull, label := JVal.jstr "x",
                        score := JVal.jnull }) ∧
    parseDecision (LlmResponse.parsed (JVal.jobj [("label", JVal.jstr "x")])) [] ≠
      Except.ok none ∧
    parseDecision (LlmResponse.parsed (JVal.jarr []))
        [{ iri := "A", label := "a", score := JVal.jnull }] =
      Except.error "AttributeError" := by
  refine ⟨rfl, ?_, rfl⟩
  intro h
  injection h with h2
  exact Option.noConfusion h2

/-- A non-empty evidence list with a response that is invalid JSON or a
non-list JSON value makes `_paths_to_text` raise the translation error. -/
theorem pathsToText_error (gen : List (List PathStep) → LlmResponse)
    (paths : List (List PathStep)) (hne : paths ≠ [])
    (hbad : gen paths = LlmResponse.invalidJson ∨
      ∃ v, gen paths = LlmResponse.parsed v ∧ ∀ xs, v ≠ JVal.jarr xs) :
    pathsToText gen paths =
      Except.error "Path translation stage returned invalid JSON." := by
  unfold pathsToText
  have hemp : paths.isEmpty = false := by
    cases paths with
    | nil => exact absurd rfl hne
    | cons a l => rfl
  rw [hemp]
  simp only [Bool.false_eq_true, if_false]
  rcases hbad with hb | ⟨v, hb, hv⟩
  · rw [hb]
  · rw [hb]
    cases v with
    | jnull => rfl
    | jbool b => rfl
    | jnum q => rfl
    | jstr s => rfl
    | jarr xs => exact absurd rfl (hv xs)
    | jobj fields => rfl

/-- Claim C5: when the collected evidence list is non-empty and the
path-to-text response does not parse as a JSON list (invalid JSON, or a JSON
value that is not a list), the whole analyze call fails with the
path-translation error — fatal for the request; nothing catches or retries
it. -/
theorem claim_C5_path_translation_error (stub : LlmStub) (g : Graph)
    (req : AnalyzeRequest) (uuid : String) (mentions : List Mention)
    (sels : List MentionCandidates)
    (h1 : extractMentions stub.ner = Except.ok mentions)
    (h2 : selectCandidates g req.top_k mentions = Except.ok sels)
    (hne : computePaths (fun a b => gatewayShortestPath (some g) a b
        req.max_hops req.hub_threshold) sels ≠ [])
    (hbad : stub.pathToText (computePaths (fun a b => gatewayShortestPath (some g)
            a b req.max_hops req.hub_threshold) sels) = LlmResponse.invalidJson ∨
      ∃ v, stub.pathToText (computePaths (fun a b => gatewayShortestPath (some g)
            a b req.max_hops req.hub_threshold) sels) = LlmResponse.parsed v ∧
          ∀ xs, v ≠ JVal.jarr xs) :
    analyzeModel stub g req uuid =
      Except.error "Path translation stage returned invalid JSON." := by
  unfold analyzeModel analyzeCore
  rw [h1]
  simp only [exceptBind_ok]
  rw [h2]
  simp only [exceptBind_ok]
  rw [pathsToText_error stub.pathToText _ hne hbad]
  rfl

/-- Witness for C5: the concrete two-mention run over the two-node graph with
an invalid path-translation response fails with the translation error. -/
theorem claim_C5_witness :
    analyzeModel exStubC5 exGraphAB exReq "u" =
      Except.error "Path translation stage returned invalid JSON." :=
  claim_C5_path_translation_error exStubC5 exGraphAB exReq "u"
    [{ surface := JVal.jstr "alpha", label := JVal.jnull, start := JVal.jnull,
       stop := JVal.jnull, confidence := JVal.jnull },
     { surface := JVal.jstr "beta", label := JVal.jnull, start := JVal.jnull,
       stop := JVal.jnull, confidence := JVal.jnull }]
    [{ surface := "alpha",
       candidates := [{ iri := "A", label := "alpha", score := JVal.jnum 1 }] },
     { surface := "beta",
       candidates := [{ iri := "B", label := "beta", score := JVal.jnum 1 }] }]
    rfl rfl (by decide) (Or.inl rfl)

/-- Claim C6: with an empty collected evidence list both narrator steps are
skipped: whatever the generation functions are, no generation call is
reported, the sentence list and the summary are empty, and no error is
raised — the empty values flow downstream as a valid outcome. -/
theorem claim_C6_empty_evidence_skips
    (genPaths : List (List PathStep) → LlmResponse)
    (genSum : List JVal → Option String) :
    pathsToText genPaths [] = Except.ok ([], false) ∧
    summarizePaths genSum [] = ("", false) :=
  ⟨rfl, rfl⟩

/-- Claim C8: every emitted `DisambiguatedMention` carries the originating
mention's surface, label, offsets and confidence unchanged, and each carries
the same whole-request `PathEvidence` (the full collected path list and the
optional summary), not a per-mention subset. -/
theorem claim_C8_fields_and_shared_evidence
    (decisionFn : DecisionQuery → LlmResponse) (text summary : String)
    (paths : List (List PathStep)) :
    ∀ (ms : List Mention) (ss : List MentionCandidates)
      (ds : List DisambiguatedMention),
      decideCandidates decisionFn text summary paths ms ss = Except.ok ds →
      List.Forall₂
        (fun (p : Mention × MentionCandidates) (d : DisambiguatedMention) =>
          d.surface = p.1.surface ∧ d.label = p.1.label ∧ d.start = p.1.start ∧
          d.stop = p.1.stop ∧ d.confidence = p.1.confidence ∧
          d.evidence = { paths := paths,
                         summary := if summary = "" then none else some summary })
        (ms.zip ss) ds := by
  intro ms
  induction ms with
  | nil =>
    intro ss ds h
    simp only [decideCandidates] at h
    injection h with h'
    subst h'
    simp
  | cons m ms ih =>
    intro ss ds h
    cases ss with
    | nil =>
      simp only [decideCandidates] at h
      injection h with h'
      subst h'
      simp
    | cons sel ss =>
      simp only [decideCandidates] at h
      cases hctx : extractContext text m.start m.stop with
      | error e =>
        rw [hctx] at h
        simp only [exceptBind_err] at h
        exact absurd h (by simp)
      | ok ctx =>
        rw [hctx] at h
        simp only [exceptBind_ok] at h
        cases hdec : parseDecision
            (decisionFn { surface := sel.surface, context := ctx,
                          summary := summary, candidates := sel.candidates })
            sel.candidates with
        | error e =>
          rw [hdec] at h
          simp only [exceptBind_err] at h
          exact absurd h (by simp)
        | ok chosen =>
          rw [hdec] at h
          simp only [exceptBind_ok] at h
          cases hrec : decideCandidates decisionFn text summary paths ms ss with
          | error e =>
            rw [hrec] at h
            simp only [exceptBind_err] at h
            exact absurd h (by simp)
          | ok rest =>
            rw [hrec] at h
            simp only [exceptBind_ok] at h
            injection h with h'
            subst h'
            exact List.Forall₂.cons ⟨rfl, rfl, rfl, rfl, rfl, rfl⟩ (ih ss rest hrec)

/-- Witness for C8 at a one-mention run with an absent decision response. -/
theorem claim_C8_witness :
    List.Forall₂
      (fun (p : Mention × MentionCandidates) (d : DisambiguatedMention) =>
        d.surface = p.1.surface ∧ d.label = p.1.label ∧ d.start = p.1.start ∧
        d.stop = p.1.stop ∧ d.confidence = p.1.confidence ∧
        d.evidence = { paths := ([] : List (List PathStep)),
                       summary := if "" = "" then none else some "" })
      ([{ surface := JVal.jstr "alpha", label := JVal.jnull, start := JVal.jnull,
          stop := JVal.jnull, confidence := JVal.jnull }].zip
        [{ surface := "alpha", candidates := ([] : List Candidate) }])
      [{ surface := JVal.jstr "alpha", label := JVal.jnull, start := JVal.jnull,
         stop := JVal.jnull, confidence := JVal.jnull, chosen := none,
         evidence := { paths := [], summary := none } }] :=
  claim_C8_fields_and_shared_evidence (fun _ => LlmResponse.absent) "alpha text" ""
    [] _ _ _ rfl

/-- Claim C9: the disambiguation output is a deterministic function of the
request, the stubbed collaborator and the graph: two executions differing
only in the drawn uuid yield identical disambiguated-mention lists (and
identical errors); the uuid reaches only the log events. -/
theorem claim_C9_deterministic (stub : LlmStub) (g : Graph)
    (req : AnalyzeRequest) (uuid1 uuid2 : String) :
    (analyzeModel stub g req uuid1).map Prod.fst =
      (analyzeModel stub g req uuid2).map Prod.fst := by
  unfold analyzeModel
  cases analyzeCore stub g req with
  | error e => rfl
  | ok r => rfl

end KG
